import Mathlib

/-
Verification of the automated student-ID resolution subsystem of Plom
(plom_server/Identify/services/id_reader.py and its callers in
plom_server/Identify/views.py), shallowly embedded in Lean.

Conventions of the embedding:
* Python floats are idealised as exact rationals; transcendental values
  (logarithms, n-th roots) that leave the rationals are expressed
  relationally with Real.log and real rpow in the theorem statements.
* A student-ID string of digits is a list of natural numbers.
* A Python dict is an association list iterated in insertion order.
* Python code that raises an exception is embedded with Option or Except:
  the value none (or Except.error) marks the raise.
-/

/-- Digits of one student-ID string (the source stores strings and converts
each character with int). -/
abbrev Sid := List ℕ

/-- One digit-probability matrix: one row per ID position, each row giving
the probabilities of the digits 0..9 at that position. -/
abbrev ProbMatrix := List (List ℚ)

/-- The probabilities dict: paper number to digit-probability matrix, in
insertion order. -/
abbrev ProbMap := List (ℕ × ProbMatrix)

/-- Clamping floor 1e-30 applied by _assemble_cost_matrix before the
logarithm. -/
def clampFloor : ℚ := 1 / 10 ^ 30

/-- Python max over a list of rationals: none models the ValueError raised
by max() on an empty sequence. -/
def pyMax : List ℚ → Option ℚ
  | [] => none
  | a :: t =>
    match pyMax t with
    | none => some a
    | some m => some (max a m)

/-- Python list.index: position of the first occurrence of x. -/
def pyIndex (x : ℚ) : List ℚ → ℕ
  | [] => 0
  | a :: t => if a = x then 0 else pyIndex x t + 1

/-- Product of the per-position probabilities of the digits of sid, as read
off by the source loop: for i in range(len(sid)) take
probabilities[paper][i][int(sid[i])]. The source raises this product to
1/len(sid) (a geometric mean) in floating point; that root is irrational in
general, so it is applied relationally in the specification theorems. -/
def sidProd (M : ProbMatrix) (sid : Sid) : ℚ :=
  ((List.range sid.length).map (fun i => (M.getD i []).getD (sid.getD i 0) 0)).prod

/-- One iteration of the paper loop of IDBoxProcessorService._greedy_predictor:
score every roster entry against the matrix of the paper and take the first
roster entry attaining the maximal score, Python
sid_probs.index(max(sid_probs)), together with that maximal score. The
value none models the ValueError raised by max() on an empty sequence,
which happens exactly when the roster is empty. -/
def greedyOne (studentIDs : List Sid) (M : ProbMatrix) : Option (Sid × ℚ) :=
  let sidProbs := studentIDs.map (fun sid => sidProd M sid)
  match pyMax sidProbs with
  | none => none
  | some m => some (studentIDs.getD (pyIndex m sidProbs) [], m)

/-- Sequencing of per-element Options along a list: a Python loop that
raises at its first failing element. -/
def optionMapList (f : α → Option β) : List α → Option (List β)
  | [] => some []
  | a :: t =>
    match f a, optionMapList f t with
    | some b, some bt => some (b :: bt)
    | _, _ => none

/-- Embedding of IDBoxProcessorService._greedy_predictor. For each paper of
the probabilities dict, in iteration order, produce one triple
(paper_number, chosen_id, score). The source stores round(mean, 2) of the
geometric mean as its certainty; here the third component carries the exact
product, whose 1/num_digits power is the geometric mean, and the rounding
of that root is stated relationally in the theorems since the root leaves
the rationals. -/
def greedyPredictor (studentIDs : List Sid) (probabilities : ProbMap) :
    Option (List (ℕ × Sid × ℚ)) :=
  optionMapList
    (fun pM => (greedyOne studentIDs pM.2).map (fun sc => (pM.1, sc.1, sc.2)))
    probabilities

/-- Clamped probability factor max(P[i][d], 1e-30) used by
_assemble_cost_matrix before taking the logarithm. -/
def clampedFactor (M : ProbMatrix) (i : ℕ) (d : ℕ) : ℚ :=
  max ((M.getD i []).getD d 0) clampFloor

/-- Embedding of the inner _log_likelihood of _assemble_cost_matrix, in
likelihood space: the source computes cost = -sum_i log(max(P[i][d_i], 1e-30));
since log leaves the rationals, the embedding carries the positive rational
L = prod_i max(P[i][d_i], 1e-30), with the semantics cost = -log L made
precise in the theorems. none models the ValueError raised when the matrix
length differs from the ID length. -/
def logLikelihoodRep (studentID : Sid) (predictionProbs : ProbMatrix) : Option ℚ :=
  if predictionProbs.length ≠ studentID.length then none
  else
    some (((List.range studentID.length).map
      (fun i => clampedFactor predictionProbs i (studentID.getD i 0))).prod)

/-- Embedding of IDBoxProcessorService._assemble_cost_matrix, in likelihood
space (see logLikelihoodRep): one row per paper, one column per student ID.
none models the KeyError on a paper missing from the probabilities dict or
the ValueError on a length mismatch. -/
def assembleCostMatrix (paperNumbers : List ℕ) (studentIDs : List Sid)
    (probabilities : ProbMap) : Option (List (List ℚ)) :=
  optionMapList
    (fun pn =>
      match probabilities.lookup pn with
      | none => none
      | some M => optionMapList (fun sid => logLikelihoodRep sid M) studentIDs)
    paperNumbers

/-- All length-k sequences of pairwise distinct column indices below cols. -/
def injSeqs (cols : ℕ) : ℕ → List (List ℕ)
  | 0 => [[]]
  | k + 1 =>
    (injSeqs cols k).flatMap
      (fun s =>
        ((List.range cols).filter (fun c => decide (c ∉ s))).map
          (fun c => s ++ [c]))

/-- First element of the list attaining the maximal value of f; earlier
elements win ties. -/
def firstArgmax (f : α → ℚ) : List α → Option α
  | [] => none
  | a :: t =>
    match firstArgmax f t with
    | none => some a
    | some b => if f a < f b then some b else some a

/-- Modelled from the spec: scipy.optimize.linear_sum_assignment, the
rectangular minimum-cost one-to-one assignment solver invoked by
_lap_predictor, is external library code absent from this repository.
Following the specification, which demands a valid one-to-one matching of
min(rows, cols) pairs, each paper used at most once and each candidate used
at most once, of globally minimal total cost, this model enumerates every
such matching, given as a strictly increasing choice of row indices zipped
with a sequence of distinct column indices, and returns one of optimal
total cost. Costs are carried in likelihood space, where an entry L stands
for the cost -log L, see logLikelihoodRep, so minimising the sum of the
costs is equivalent to maximising the product of the entries. -/
def linearSumAssignment (L : List (List ℚ)) : List (ℕ × ℕ) :=
  let k := min L.length (L.headD []).length
  let cands :=
    ((List.range L.length).sublists.filter (fun rs => decide (rs.length = k))).flatMap
      (fun rs => (injSeqs (L.headD []).length k).map (fun cs => rs.zip cs))
  match
    firstArgmax (fun m => (m.map (fun rc => (L.getD rc.1 []).getD rc.2 0)).prod)
      cands
  with
  | none => []
  | some m => m

/-- Embedding of IDBoxProcessorService._lap_predictor: solve the assignment
problem over the cost matrix, then report for every matched pair the paper
number, the student ID, and the geometric-mean certainty recomputed from
the unclamped probabilities, carried in product form exactly as in
greedyPredictor. -/
def lapPredictor (paperNumbers : List ℕ) (studentIDs : List Sid)
    (probabilities : ProbMap) : Option (List (ℕ × Sid × ℚ)) :=
  match assembleCostMatrix paperNumbers studentIDs probabilities with
  | none => none
  | some cost =>
    some ((linearSumAssignment cost).map (fun rc =>
      let pn := paperNumbers.getD rc.1 0
      let sid := studentIDs.getD rc.2 []
      (pn, sid, sidProd ((probabilities.lookup pn).getD []) sid)))

/-- One row of the IDPrediction table. -/
structure PredRow where
  paper : ℕ
  predictor : String
  student_id : Sid
  certainty : ℚ
  user : ℕ
deriving DecidableEq

/-- Embedding of IDReaderService.add_or_change_ID_prediction: an upsert of
the row keyed by (paper, predictor). If a row with that key exists, its
student_id and certainty fields are overwritten (the user field, as in the
source, is only set at creation); otherwise a fresh row is created. -/
def addOrChangeIDPrediction (db : List PredRow) (user : ℕ) (paperNum : ℕ)
    (studentId : Sid) (certainty : ℚ) (predictor : String) : List PredRow :=
  if db.any (fun r => decide (r.paper = paperNum ∧ r.predictor = predictor)) then
    db.map (fun r =>
      if r.paper = paperNum ∧ r.predictor = predictor then
        { r with student_id := studentId, certainty := certainty }
      else r)
  else
    db ++ [⟨paperNum, predictor, studentId, certainty, user⟩]

/-- Pairwise distinctness of the (paper, predictor) keys of the prediction
table: at most one row per key. -/
def distinctKeys (db : List PredRow) : Prop :=
  db.Pairwise (fun a b => (a.paper, a.predictor) ≠ (b.paper, b.predictor))

/-- Rows of the prediction table carrying a given (paper, predictor) key. -/
def rowsFor (db : List PredRow) (paperNum : ℕ) (predictor : String) :
    List PredRow :=
  db.filter (fun r => decide (r.paper = paperNum ∧ r.predictor = predictor))

/-- Persistence loop shared by run_greedy and run_lap_solver: one
add_or_change_ID_prediction call per prediction triple, under a fixed
predictor kind. -/
def writePredictions (db : List PredRow) (user : ℕ)
    (preds : List (ℕ × Sid × ℚ)) (predictor : String) : List PredRow :=
  preds.foldl (fun d t => addOrChangeIDPrediction d user t.1 t.2.1 t.2.2 predictor) db

/-- Embedding of IDBoxProcessorService.run_greedy: run the greedy predictor
on the whole probabilities dict against the full roster it is handed and
persist every prediction under the MLGreedy kind. none models a propagated
ValueError from the predictor. -/
def runGreedy (db : List PredRow) (user : ℕ) (studentIds : List Sid)
    (probabilities : ProbMap) : Option (List PredRow) :=
  (greedyPredictor studentIds probabilities).map
    (fun preds => writePredictions db user preds "MLGreedy")

/-- Embedding of IDBoxProcessorService.run_lap_solver. The already matched
student IDs are first removed in place from the caller-supplied roster list
(Python list.remove inside try/except ValueError: pass, which is List.erase);
the papers are restricted to the unidentified ones having a probability
matrix; a degenerate problem raises IndexError before any persistence. The
result is the final database, the mutated roster list, and the outcome. -/
def runLapSolver (db : List PredRow) (user : ℕ)
    (alreadyMatchedSids : List Sid) (unidentifiedPapers : List ℕ)
    (studentIds : List Sid) (probabilities : ProbMap) :
    List PredRow × List Sid × Except String Unit :=
  let ids := alreadyMatchedSids.foldl (fun l s => l.erase s) studentIds
  let papersToId := unidentifiedPapers.filter (fun n => (probabilities.lookup n).isSome)
  if papersToId.length = 0 ∨ ids.length = 0 then
    (db, ids,
      Except.error ("Assignment problem is degenerate: " ++
        toString papersToId.length ++ " unidentified machine-read papers and " ++
        toString ids.length ++ " unused students."))
  else
    match lapPredictor papersToId ids probabilities with
    | none => (db, ids, Except.error "ValueError: Wrong length")
    | some preds => (writePredictions db user preds "MLLAP", ids, Except.ok ())

/-- Embedding of IDBoxProcessorService.make_id_predictions, the resolver
part after the heatmap is available: the greedy strategy runs first over
the full roster, persisting as it goes, then the LAP strategy, which begins
by mutating the shared roster list. The result is the final database, the
final state of the caller-supplied roster list, and the outcome. -/
def makeIdPredictions (db : List PredRow) (user : ℕ)
    (alreadyMatchedSids : List Sid) (unidentifiedPapers : List ℕ)
    (studentIds : List Sid) (probabilities : ProbMap) :
    List PredRow × List Sid × Except String Unit :=
  match runGreedy db user studentIds probabilities with
  | none => (db, studentIds, Except.error "ValueError: max() arg is an empty sequence")
  | some db1 =>
    runLapSolver db1 user alreadyMatchedSids unidentifiedPapers studentIds probabilities

/-- Per-paper image data abstracting what the segmenter consumes: none
models an ID box too small for resize_ID_box_and_extract_digit_strip,
which then returns None; some cells gives, for each digit cell index,
either none, meaning cv.findContours finds zero contours in that cell, or
the probability vector the pretrained classifier assigns to the normalised
digit image of that cell. The classifier itself, predict_proba of an
externally loaded model, is opaque and is composed into the per-cell
outcome. -/
abbrev IdBoxImage := Option (List (Option (List ℚ)))

/-- Embedding of the control flow of IDBoxProcessorService.get_digit_images
composed with the classifier loop of get_digit_probabilities: the source
iterates digit_index over range(num_digits) and returns the empty list as
soon as one cell yields zero contours, so the result is all num_digits
cells or nothing. -/
def getDigitProbs (cells : List (Option (List ℚ))) (numDigits : ℕ) :
    List (List ℚ) :=
  match optionMapList (fun i => cells.getD i none) (List.range numDigits) with
  | none => []
  | some l => l

/-- Embedding of IDBoxProcessorService.get_digit_probabilities: an absent
box, one too small to resize, yields the empty list, otherwise the
per-cell pipeline runs. -/
def getDigitProbabilities (img : IdBoxImage) (numDigits : ℕ) : List (List ℚ) :=
  match img with
  | none => []
  | some cells => getDigitProbs cells numDigits

/-- Embedding of
IDBoxProcessorService.compute_probability_heatmap_for_idbox_images: iterate
the dict of id-box images, skip papers whose digit reading failed with an
empty list, and store the matrix otherwise; the source stores the matrix
both in its length-mismatch warning branch and in its normal branch. -/
def computeProbabilityHeatmap (imageFiles : List (ℕ × IdBoxImage))
    (numDigits : ℕ) : List (ℕ × List (List ℚ)) :=
  imageFiles.foldl
    (fun probabilities pf =>
      let probLists := getDigitProbabilities pf.2 numDigits
      if probLists.length = 0 then probabilities
      else if probLists.length ≠ numDigits then probabilities ++ [(pf.1, probLists)]
      else probabilities ++ [(pf.1, probLists)])
    []

/-- Embedding of IDBoxProcessorService.save_all_id_boxes: the papers with a
scanned ID page, in order, minus the prenamed ones; each paper for which
the rectangle extractor returns None, meaning no usable transform, is
skipped while the loop continues, and the others are saved into the
returned dict. The extracted image bytes are abstracted by a natural
number. -/
def saveAllIdBoxes (scannedPapers : List (ℕ × Option ℕ))
    (prenamedPapers : List ℕ) : List (ℕ × ℕ) :=
  (scannedPapers.filter (fun p => decide (p.1 ∉ prenamedPapers))).foldl
    (fun acc p =>
      match p.2 with
      | none => acc
      | some bytes => acc ++ [(p.1, bytes)])
    []

/-- Status of an IDReadingHueyTask background tracker row. Modelled from
the spec: the HueyTaskTracker base model is not part of the sources here;
the spec treats starting, queued and running as the non-terminal in-flight
statuses of a background run. -/
inductive HueyStatus
  | starting
  | queued
  | running
  | complete
  | errored
deriving DecidableEq

/-- Predicate for a non-terminal background task row. -/
def isInFlight (s : HueyStatus) : Bool :=
  match s with
  | HueyStatus.starting => true
  | HueyStatus.queued => true
  | HueyStatus.running => true
  | HueyStatus.complete => false
  | HueyStatus.errored => false

/-- Embedding of IDReaderService.run_the_id_reader_in_background_via_huey
acting on the list of existing IDReadingHueyTask rows: the source
unconditionally creates a new tracker row with status STARTING and then
enqueues the background job; its TODO comment records that a guard against
an already existing running task still needs to be added, and no guard is
present. -/
def runTheIdReaderInBackgroundViaHuey (tasks : List HueyStatus) :
    List HueyStatus :=
  tasks ++ [HueyStatus.starting]

/-! Helper lemmas about the Python list primitives of the embedding. -/

theorem pyMax_isSome (l : List ℚ) (h : l ≠ []) : ∃ m, pyMax l = some m := by
  cases l with
  | nil => exact absurd rfl h
  | cons a t =>
    cases ht : pyMax t with
    | none => exact ⟨a, by simp [pyMax, ht]⟩
    | some m => exact ⟨max a m, by simp [pyMax, ht]⟩

theorem pyMax_mem (l : List ℚ) (m : ℚ) (h : pyMax l = some m) : m ∈ l := by
  induction l generalizing m with
  | nil => simp [pyMax] at h
  | cons a t ih =>
    cases ht : pyMax t with
    | none =>
      simp [pyMax, ht] at h
      simp [h]
    | some mt =>
      simp [pyMax, ht] at h
      rcases max_choice a mt with hc | hc
      · rw [hc] at h
        simp [← h]
      · rw [hc] at h
        exact List.mem_cons_of_mem a (h ▸ ih mt ht)

theorem pyMax_eq_none (l : List ℚ) (h : pyMax l = none) : l = [] := by
  cases l with
  | nil => rfl
  | cons a t => cases h2 : pyMax t <;> simp [pyMax, h2] at h

theorem pyMax_ge (l : List ℚ) (m : ℚ) (h : pyMax l = some m) :
    ∀ x ∈ l, x ≤ m := by
  induction l generalizing m with
  | nil => simp [pyMax] at h
  | cons a t ih =>
    intro x hx
    cases ht : pyMax t with
    | none =>
      have hte : t = [] := pyMax_eq_none t ht
      subst hte
      simp [pyMax] at h
      simp at hx
      rw [hx, ← h]
    | some mt =>
      simp [pyMax, ht] at h
      rcases List.mem_cons.mp hx with hxa | hxt
      · exact h ▸ hxa ▸ le_max_left a mt
      · exact le_trans (ih mt ht x hxt) (h ▸ le_max_right a mt)

theorem pyIndex_lt_length (l : List ℚ) (x : ℚ) (h : x ∈ l) :
    pyIndex x l < l.length := by
  induction l with
  | nil => simp at h
  | cons a t ih =>
    by_cases hax : a = x
    · simp [pyIndex, hax]
    · rcases List.mem_cons.mp h with hxa | hxt
      · exact absurd hxa.symm hax
      · simpa [pyIndex, hax] using ih hxt

theorem getD_pyIndex (l : List ℚ) (x : ℚ) (h : x ∈ l) :
    l.getD (pyIndex x l) 0 = x := by
  induction l with
  | nil => simp at h
  | cons a t ih =>
    by_cases hax : a = x
    · simp [pyIndex, hax]
    · rcases List.mem_cons.mp h with hxa | hxt
      · exact absurd hxa.symm hax
      · simpa [pyIndex, hax] using ih hxt

theorem getD_lt_pyIndex_ne (l : List ℚ) (x : ℚ) (j : ℕ)
    (hj : j < pyIndex x l) : l.getD j 0 ≠ x := by
  induction l generalizing j with
  | nil => simp [pyIndex] at hj
  | cons a t ih =>
    by_cases hax : a = x
    · simp [pyIndex, hax] at hj
    · cases j with
      | zero => simpa using hax
      | succ j =>
        simp [pyIndex, hax] at hj
        simpa using ih j (by omega)

theorem optionMapList_eq_map {f : α → Option β} {g : α → β} (l : List α)
    (h : ∀ a ∈ l, f a = some (g a)) : optionMapList f l = some (l.map g) := by
  induction l with
  | nil => simp [optionMapList]
  | cons a t ih =>
    have ha := h a (by simp)
    have ht := ih (fun b hb => h b (by simp [hb]))
    simp [optionMapList, ha, ht]

theorem optionMapList_some_length {f : α → Option β} {l : List α}
    {out : List β} (h : optionMapList f l = some out) :
    out.length = l.length := by
  induction l generalizing out with
  | nil => simp [optionMapList] at h; simp [← h]
  | cons a t ih =>
    cases hfa : f a with
    | none => simp [optionMapList, hfa] at h
    | some b =>
      cases hft : optionMapList f t with
      | none => simp [optionMapList, hfa, hft] at h
      | some bt =>
        simp [optionMapList, hfa, hft] at h
        simp [← h, ih hft]

theorem optionMapList_none_of_mem {f : α → Option β} {l : List α} {a : α}
    (ha : a ∈ l) (hfa : f a = none) : optionMapList f l = none := by
  induction l with
  | nil => simp at ha
  | cons b t ih =>
    rcases List.mem_cons.mp ha with hab | hat
    · subst hab
      simp [optionMapList, hfa]
    · cases hfb : f b <;> simp [optionMapList, hfb, ih hat]

theorem getD_map_of_lt {l : List α} (f : α → β) {i : ℕ} (h : i < l.length)
    (d : β) (e : α) : (l.map f).getD i d = f (l.getD i e) := by
  rw [List.getD_eq_getElem _ _ (by simpa using h), List.getD_eq_getElem _ _ h]
  simp

theorem getD_mem_of_lt {l : List α} {i : ℕ} (h : i < l.length) (d : α) :
    l.getD i d ∈ l := by
  rw [List.getD_eq_getElem _ _ h]
  exact List.getElem_mem h

theorem getD_mem_or (l : List α) (i : ℕ) (d : α) :
    l.getD i d = d ∨ l.getD i d ∈ l := by
  rcases Nat.lt_or_ge i l.length with h | h
  · exact Or.inr (getD_mem_of_lt h d)
  · exact Or.inl (List.getD_eq_default _ _ h)

theorem sidProd_nonneg (M : ProbMatrix) (sid : Sid)
    (h : ∀ row ∈ M, ∀ q ∈ row, 0 ≤ q) : 0 ≤ sidProd M sid := by
  apply List.prod_nonneg
  intro a ha
  rcases List.mem_map.mp ha with ⟨i, _, rfl⟩
  rcases getD_mem_or M i [] with hrow | hrow
  · rw [hrow, List.getD_nil]
  · rcases getD_mem_or (M.getD i []) (sid.getD i 0) 0 with hq | hq
    · exact hq.ge
    · exact h _ hrow _ hq

/-! Claim C1: greedy predictor chooses the maximal geometric-mean score. -/

/-- C1: For every probabilities dict, each matrix of length num_digits, and
every non-empty roster of fixed-length student-ID strings, the greedy
predictor returns, for each paper of the dict, exactly one triple
(paper_number, chosen_id, certainty) in which chosen_id attains the maximum
geometric-mean score, the product of the per-position probabilities of its
digits raised to the power 1/num_digits, over all roster entries, with ties
broken by the first roster entry attaining the maximum in roster order.
The third component is the exact product whose 1/num_digits power is that
maximum geometric mean; the certainty stored by the source is that maximum
score rounded to two decimals. -/
theorem greedy_predictor_max_geomean
    (probabilities : ProbMap) (studentIDs : List Sid) (n : ℕ)
    (hn : 0 < n)
    (hroster : studentIDs ≠ [])
    (hsidlen : ∀ sid ∈ studentIDs, sid.length = n)
    (hdigits : ∀ sid ∈ studentIDs, ∀ d ∈ sid, d < 10)
    (hkeys : (probabilities.map Prod.fst).Nodup)
    (hMlen : ∀ pM ∈ probabilities, (pM.2 : ProbMatrix).length = n)
    (hrows : ∀ pM ∈ probabilities, ∀ row ∈ pM.2, row.length = 10)
    (hnonneg : ∀ pM ∈ probabilities, ∀ row ∈ pM.2, ∀ q ∈ row, 0 ≤ q) :
    ∃ out, greedyPredictor studentIDs probabilities = some out ∧
      out.map Prod.fst = probabilities.map Prod.fst ∧
      ∀ i < probabilities.length,
        ∃ j < studentIDs.length,
          out.getD i (0, [], 0) =
            ((probabilities.getD i (0, [])).1, studentIDs.getD j [],
              sidProd (probabilities.getD i (0, [])).2 (studentIDs.getD j [])) ∧
          IsGreatest
            {x : ℝ | ∃ sid ∈ studentIDs,
              x = (sidProd (probabilities.getD i (0, [])).2 sid : ℝ) ^ ((n : ℝ)⁻¹)}
            ((sidProd (probabilities.getD i (0, [])).2 (studentIDs.getD j []) : ℝ) ^
              ((n : ℝ)⁻¹)) ∧
          ∀ j2 < j,
            (sidProd (probabilities.getD i (0, [])).2 (studentIDs.getD j2 []) : ℝ) ^
                ((n : ℝ)⁻¹) <
              (sidProd (probabilities.getD i (0, [])).2 (studentIDs.getD j []) : ℝ) ^
                ((n : ℝ)⁻¹) := by
  have hexp : (0 : ℝ) < (n : ℝ)⁻¹ :=
    inv_pos.mpr (Nat.cast_pos.mpr hn)
  have hone : ∀ M : ProbMatrix,
      ∃ m, pyMax (studentIDs.map (fun sid => sidProd M sid)) = some m := by
    intro M
    apply pyMax_isSome
    simpa using hroster
  have hfg : ∀ pM ∈ probabilities,
      (fun pM : ℕ × ProbMatrix =>
        (greedyOne studentIDs pM.2).map (fun sc => (pM.1, sc.1, sc.2))) pM =
      some ((fun pM : ℕ × ProbMatrix =>
        (pM.1, ((greedyOne studentIDs pM.2).getD ([], 0)).1,
          ((greedyOne studentIDs pM.2).getD ([], 0)).2)) pM) := by
    intro pM _
    obtain ⟨m, hm⟩ := hone pM.2
    simp [greedyOne, hm]
  have hout := optionMapList_eq_map probabilities hfg
  refine ⟨_, hout, ?_, ?_⟩
  · rw [List.map_map]
    exact List.map_congr_left (fun pM _ => rfl)
  · intro i hi
    have hiout : i < (List.map (fun pM : ℕ × ProbMatrix =>
        (pM.1, ((greedyOne studentIDs pM.2).getD ([], 0)).1,
          ((greedyOne studentIDs pM.2).getD ([], 0)).2)) probabilities).length := by
      simpa using hi
    have hentry := getD_map_of_lt (l := probabilities)
      (fun pM : ℕ × ProbMatrix =>
        (pM.1, ((greedyOne studentIDs pM.2).getD ([], 0)).1,
          ((greedyOne studentIDs pM.2).getD ([], 0)).2)) hi
      ((0 : ℕ), ([] : Sid), (0 : ℚ)) ((0 : ℕ), ([] : ProbMatrix))
    have hpMmem : probabilities.getD i (0, []) ∈ probabilities :=
      getD_mem_of_lt hi _
    obtain ⟨m, hm⟩ := hone (probabilities.getD i (0, [])).2
    have hmmem := pyMax_mem _ _ hm
    have hub := pyMax_ge _ _ hm
    have hjlt : pyIndex m (studentIDs.map
        (fun sid => sidProd (probabilities.getD i (0, [])).2 sid)) <
        studentIDs.length := by
      have := pyIndex_lt_length _ _ hmmem
      simpa using this
    set scores := studentIDs.map
      (fun sid => sidProd (probabilities.getD i (0, [])).2 sid) with hscores
    set j := pyIndex m scores with hj
    have hchosenval : sidProd (probabilities.getD i (0, [])).2
        (studentIDs.getD j []) = m := by
      have h1 : scores.getD j 0 = m := getD_pyIndex _ _ hmmem
      have h2 := getD_map_of_lt (l := studentIDs)
        (fun sid => sidProd (probabilities.getD i (0, [])).2 sid) hjlt
        (0 : ℚ) ([] : Sid)
      rw [hscores] at h1
      rw [h2] at h1
      exact h1
    have hnonnegM : ∀ sid : Sid,
        0 ≤ sidProd (probabilities.getD i (0, [])).2 sid := by
      intro sid
      exact sidProd_nonneg _ _ (hnonneg _ hpMmem)
    refine ⟨j, hjlt, ?_, ⟨?_, ?_⟩, ?_⟩
    · rw [hentry]
      have hco : greedyOne studentIDs (probabilities.getD i (0, [])).2 =
          some (studentIDs.getD j [], m) := by
        simp only [greedyOne]
        rw [← hscores, hm]
      rw [hco]
      simp only [Option.getD_some]
      rw [hchosenval]
    · exact ⟨studentIDs.getD j [], getD_mem_of_lt hjlt _, rfl⟩
    · rintro x ⟨sid, hsid, rfl⟩
      apply Real.rpow_le_rpow
      · exact_mod_cast hnonnegM sid
      · have : sidProd (probabilities.getD i (0, [])).2 sid ≤ m := by
          apply hub
          rw [hscores]
          exact List.mem_map.mpr ⟨sid, hsid, rfl⟩
        rw [hchosenval]
        exact_mod_cast this
      · exact le_of_lt hexp
    · intro j2 hj2
      have hj2lt : j2 < studentIDs.length := lt_trans hj2 hjlt
      have hv2 := getD_map_of_lt (l := studentIDs)
        (fun sid => sidProd (probabilities.getD i (0, [])).2 sid) hj2lt
        (0 : ℚ) ([] : Sid)
      have hne : scores.getD j2 0 ≠ m := getD_lt_pyIndex_ne _ _ _ hj2
      have hle : scores.getD j2 0 ≤ m := by
        apply hub
        apply getD_mem_of_lt
        rw [hscores]
        simpa using hj2lt
      have hlt : sidProd (probabilities.getD i (0, [])).2
          (studentIDs.getD j2 []) <
          sidProd (probabilities.getD i (0, [])).2 (studentIDs.getD j []) := by
        rw [hchosenval]
        rw [hscores] at hne hle
        rw [hv2] at hne hle
        exact lt_of_le_of_ne hle hne
      apply Real.rpow_lt_rpow
      · exact_mod_cast hnonnegM _
      · exact_mod_cast hlt
      · exact hexp

/-- C1 witness: the greedy predictor applied to a concrete one-digit roster
and probabilities dict succeeds and yields one triple for the single paper. -/
theorem greedy_predictor_max_geomean_witness :
    ∃ out,
      greedyPredictor [[3], [1]]
          [(7, [[0, 1/2, 0, 9/10, 0, 0, 0, 0, 0, 0]])] = some out ∧
      out.map Prod.fst = [7] := by
  obtain ⟨out, h1, h2, _⟩ := greedy_predictor_max_geomean
    [(7, [[0, 1/2, 0, 9/10, 0, 0, 0, 0, 0, 0]])] [[3], [1]] 1
    (by decide) (by decide) (by decide) (by decide) (by decide) (by decide)
    (by decide) (by norm_num [List.forall_mem_cons])
  exact ⟨out, h1, by simpa using h2⟩

/-! Helper lemmas about the in-place removal loop of run_lap_solver. -/

theorem foldl_erase_subset (ms : List Sid) (l : List Sid) :
    ms.foldl (fun l s => l.erase s) l ⊆ l := by
  induction ms generalizing l with
  | nil => exact fun s hs => hs
  | cons m t ih =>
    intro s hs
    exact List.erase_subset m l (ih (l.erase m) hs)

theorem foldl_erase_not_mem (ms : List Sid) (l : List Sid) (hnd : l.Nodup)
    (s : Sid) (hs : s ∈ ms) : s ∉ ms.foldl (fun l s => l.erase s) l := by
  induction ms generalizing l with
  | nil => simp at hs
  | cons m t ih =>
    rcases List.mem_cons.mp hs with hsm | hst
    · subst hsm
      intro hmem
      exact hnd.not_mem_erase (foldl_erase_subset t (l.erase s) hmem)
    · exact ih (l.erase m) (hnd.erase m) hst

theorem foldl_erase_keeps (ms : List Sid) (l : List Sid) (s : Sid)
    (hsl : s ∈ l) (hs : s ∉ ms) : s ∈ ms.foldl (fun l s => l.erase s) l := by
  induction ms generalizing l with
  | nil => exact hsl
  | cons m t ih =>
    have hsm : s ≠ m := fun h => hs (by simp [h])
    exact ih (l.erase m) ((List.mem_erase_of_ne hsm).mpr hsl)
      (fun h => hs (by simp [h]))

theorem foldl_erase_nil (ms : List Sid) :
    ms.foldl (fun l s => l.erase s) [] = [] := by
  induction ms with
  | nil => rfl
  | cons m t ih => simpa [List.erase_nil] using ih

/-- Helper: the roster component returned by runLapSolver is always the
erase-fold of the roster it was given, whatever the outcome. -/
theorem runLapSolver_roster (db : List PredRow) (user : ℕ)
    (am : List Sid) (up : List ℕ) (sids : List Sid) (probs : ProbMap) :
    (runLapSolver db user am up sids probs).2.1 =
      am.foldl (fun l s => l.erase s) sids := by
  simp only [runLapSolver]
  split
  · rfl
  · split <;> rfl

/-- Helper: the database component returned by runLapSolver is either
untouched or extended by a single MLLAP write pass. -/
theorem runLapSolver_db (db : List PredRow) (user : ℕ)
    (am : List Sid) (up : List ℕ) (sids : List Sid) (probs : ProbMap) :
    (runLapSolver db user am up sids probs).1 = db ∨
      ∃ preds, (runLapSolver db user am up sids probs).1 =
        writePredictions db user preds "MLLAP" := by
  simp only [runLapSolver]
  split
  · exact Or.inl rfl
  · split
    · exact Or.inl rfl
    · exact Or.inr ⟨_, rfl⟩

/-! Claim C10: run_lap_solver mutates the caller-supplied roster in place. -/

/-- C10: run_lap_solver removes every already-matched student ID from the
caller-supplied roster list object before solving, so after
make_id_predictions returns, the roster list the caller passed in, the very
object previously consumed unmodified by the greedy strategy that runs
first, no longer contains the consumed IDs, while unconsumed IDs remain; a
side effect on the input visible to any later user of that list. -/
theorem make_id_predictions_mutates_roster
    (db : List PredRow) (user : ℕ) (alreadyMatchedSids : List Sid)
    (unidentifiedPapers : List ℕ) (studentIds : List Sid)
    (probabilities : ProbMap)
    (hnd : studentIds.Nodup) (hne : studentIds ≠ []) :
    (makeIdPredictions db user alreadyMatchedSids unidentifiedPapers studentIds
        probabilities).2.1 =
      alreadyMatchedSids.foldl (fun l s => l.erase s) studentIds ∧
    (∀ s ∈ alreadyMatchedSids,
      s ∉ (makeIdPredictions db user alreadyMatchedSids unidentifiedPapers
        studentIds probabilities).2.1) ∧
    (∀ s ∈ studentIds, s ∉ alreadyMatchedSids →
      s ∈ (makeIdPredictions db user alreadyMatchedSids unidentifiedPapers
        studentIds probabilities).2.1) ∧
    ∃ gpreds, greedyPredictor studentIds probabilities = some gpreds ∧
      ((makeIdPredictions db user alreadyMatchedSids unidentifiedPapers studentIds
          probabilities).1 = writePredictions db user gpreds "MLGreedy" ∨
        ∃ lpreds,
          (makeIdPredictions db user alreadyMatchedSids unidentifiedPapers
            studentIds probabilities).1 =
            writePredictions (writePredictions db user gpreds "MLGreedy") user
              lpreds "MLLAP") := by
  have hfg : ∀ pM ∈ probabilities,
      (fun pM : ℕ × ProbMatrix =>
        (greedyOne studentIds pM.2).map (fun sc => (pM.1, sc.1, sc.2))) pM =
      some ((fun pM : ℕ × ProbMatrix =>
        (pM.1, ((greedyOne studentIds pM.2).getD ([], 0)).1,
          ((greedyOne studentIds pM.2).getD ([], 0)).2)) pM) := by
    intro pM _
    obtain ⟨m, hm⟩ := pyMax_isSome (studentIds.map (fun sid => sidProd pM.2 sid))
      (by simpa using hne)
    simp [greedyOne, hm]
  have hgp : greedyPredictor studentIds probabilities =
      some (probabilities.map (fun pM : ℕ × ProbMatrix =>
        (pM.1, ((greedyOne studentIds pM.2).getD ([], 0)).1,
          ((greedyOne studentIds pM.2).getD ([], 0)).2))) :=
    optionMapList_eq_map probabilities hfg
  have hmk : makeIdPredictions db user alreadyMatchedSids unidentifiedPapers
      studentIds probabilities =
      runLapSolver (writePredictions db user
          (probabilities.map (fun pM : ℕ × ProbMatrix =>
            (pM.1, ((greedyOne studentIds pM.2).getD ([], 0)).1,
              ((greedyOne studentIds pM.2).getD ([], 0)).2))) "MLGreedy") user
        alreadyMatchedSids unidentifiedPapers studentIds probabilities := by
    simp [makeIdPredictions, runGreedy, hgp]
  rw [hmk]
  refine ⟨?_, ?_, ?_, _, hgp, ?_⟩
  · exact runLapSolver_roster _ _ _ _ _ _
  · intro s hs
    rw [runLapSolver_roster]
    exact foldl_erase_not_mem _ _ hnd s hs
  · intro s hsl hsm
    rw [runLapSolver_roster]
    exact foldl_erase_keeps _ _ s hsl hsm
  · rcases runLapSolver_db (writePredictions db user
        (probabilities.map (fun pM : ℕ × ProbMatrix =>
          (pM.1, ((greedyOne studentIds pM.2).getD ([], 0)).1,
            ((greedyOne studentIds pM.2).getD ([], 0)).2))) "MLGreedy") user
        alreadyMatchedSids unidentifiedPapers studentIds probabilities with h | ⟨lp, h⟩
    · exact Or.inl h
    · exact Or.inr ⟨lp, h⟩

/-- C10 witness: with roster [[1], [2]] and the ID [1] already matched, the
roster object coming back from make_id_predictions no longer contains [1]. -/
theorem make_id_predictions_mutates_roster_witness :
    (makeIdPredictions [] 0 [[1]] [] [[1], [2]] []).2.1 =
      ([[1]] : List Sid).foldl (fun l s => l.erase s) [[1], [2]] ∧
    [1] ∉ (makeIdPredictions [] 0 [[1]] [] [[1], [2]] []).2.1 := by
  obtain ⟨h1, h2, -, -⟩ := make_id_predictions_mutates_roster [] 0 [[1]] [] [[1], [2]]
    [] (by decide) (by decide)
  exact ⟨h1, h2 [1] (by decide)⟩

/-! Claim C4: behaviour on degenerate inputs. -/

/-- C4 counterexample: the claim asserts that on an empty candidate roster
with at least one paper the greedy predictor returns no prediction rather
than raising; on the code, max() of the empty score sequence raises
ValueError, embedded as none, so the predictor does not return an empty
prediction list. -/
theorem greedy_empty_roster_raises :
    greedyPredictor [] [(1, [[1, 0, 0, 0, 0, 0, 0, 0, 0, 0]])] = none ∧
    greedyPredictor [] [(1, [[1, 0, 0, 0, 0, 0, 0, 0, 0, 0]])] ≠ some [] := by
  exact ⟨rfl, by decide⟩

/-- C4 amended: with an empty candidate roster, run_lap_solver raises the
descriptive degenerate-assignment IndexError before persisting anything,
and the greedy predictor also raises, via the Python max of an empty score
sequence, whenever at least one paper has a matrix; it returns an empty
prediction list only when the probabilities dict is empty as well. -/
theorem degenerate_empty_roster_behaviour :
    (∀ (db : List PredRow) (user : ℕ) (am : List Sid) (up : List ℕ)
        (probabilities : ProbMap),
      runLapSolver db user am up [] probabilities =
        (db, [],
          Except.error ("Assignment problem is degenerate: " ++
            toString (up.filter
              (fun n => (probabilities.lookup n).isSome)).length ++
            " unidentified machine-read papers and " ++ toString (0 : ℕ) ++
            " unused students."))) ∧
    (∀ probabilities : ProbMap, probabilities ≠ [] →
      greedyPredictor [] probabilities = none) ∧
    greedyPredictor [] [] = some [] := by
  refine ⟨?_, ?_, rfl⟩
  · intro db user am up probabilities
    simp [runLapSolver, foldl_erase_nil]
  · intro probabilities hne
    cases probabilities with
    | nil => exact absurd rfl hne
    | cons pM rest => rfl

/-- C4 witness: the degenerate behaviour at a concrete input, one paper
with a matrix and an empty roster. -/
theorem degenerate_empty_roster_behaviour_witness :
    runLapSolver [] 0 [] [5] [] [(5, [[1, 0, 0, 0, 0, 0, 0, 0, 0, 0]])] =
      ([], [],
        Except.error ("Assignment problem is degenerate: " ++
          toString (([5].filter (fun n =>
            (([(5, [[1, 0, 0, 0, 0, 0, 0, 0, 0, 0]])] : ProbMap).lookup
              n).isSome)).length) ++
          " unidentified machine-read papers and " ++ toString (0 : ℕ) ++
          " unused students.")) ∧
    greedyPredictor [] [(5, [[1, 0, 0, 0, 0, 0, 0, 0, 0, 0]])] = none := by
  exact ⟨degenerate_empty_roster_behaviour.1 [] 0 [] [5] _,
    degenerate_empty_roster_behaviour.2.1 _ (by decide)⟩

/-! Claim C3: cost matrix entries and clamping. -/

theorem rat_cast_list_prod (l : List ℚ) :
    ((l.prod : ℚ) : ℝ) = (l.map (Rat.cast : ℚ → ℝ)).prod := by
  induction l with
  | nil => simp
  | cons a t ih =>
    simp only [List.prod_cons, List.map_cons]
    push_cast
    rfl

theorem log_list_prod (l : List ℝ) (h : ∀ x ∈ l, 0 < x) :
    Real.log l.prod = (l.map Real.log).sum := by
  induction l with
  | nil => simp
  | cons a t ih =>
    have ha : a ≠ 0 := ne_of_gt (h a (by simp))
    have ht : t.prod ≠ 0 := by
      apply ne_of_gt
      apply List.prod_pos
      intro x hx
      exact h x (by simp [hx])
    simp [Real.log_mul ha ht, ih (fun x hx => h x (by simp [hx]))]

theorem logLikelihoodRep_eq_some (sid : Sid) (M : ProbMatrix)
    (h : M.length = sid.length) :
    logLikelihoodRep sid M = some (((List.range sid.length).map
      (fun i => clampedFactor M i (sid.getD i 0))).prod) := by
  simp [logLikelihoodRep, h]

theorem clampedFactor_pos (M : ProbMatrix) (i : ℕ) (d : ℕ) :
    0 < clampedFactor M i d := by
  apply lt_of_lt_of_le _ (le_max_right _ _)
  norm_num [clampFloor]

/-- Helper: under the well-formedness hypotheses of the resolver the cost
matrix assembles successfully into one row per paper of per-candidate
clamped likelihood products. -/
theorem assembleCostMatrix_eq_map (paperNumbers : List ℕ)
    (studentIDs : List Sid) (probabilities : ProbMap) (n : ℕ)
    (hsid : ∀ sid ∈ studentIDs, sid.length = n)
    (hmat : ∀ pn ∈ paperNumbers,
      ∃ M, probabilities.lookup pn = some M ∧ M.length = n) :
    assembleCostMatrix paperNumbers studentIDs probabilities =
      some (paperNumbers.map (fun pn => studentIDs.map (fun sid =>
        ((List.range sid.length).map (fun i =>
          clampedFactor ((probabilities.lookup pn).getD []) i
            (sid.getD i 0))).prod))) := by
  apply optionMapList_eq_map
  intro pn hpn
  obtain ⟨M, hM, hlen⟩ := hmat pn hpn
  show (match probabilities.lookup pn with
    | none => none
    | some M => optionMapList (fun sid => logLikelihoodRep sid M) studentIDs) = _
  rw [hM]
  simp only [Option.getD_some]
  apply optionMapList_eq_map
  intro sid hs
  exact logLikelihoodRep_eq_some sid M (by rw [hlen, hsid sid hs])

/-- C3: For every list of paper numbers, every roster of length-n IDs and
every probabilities dict holding a length-n matrix for each listed paper,
the cost matrix built by _assemble_cost_matrix satisfies, for every paper
index p and candidate index c, cost[p][c] = -sum over digit positions i of
log(max(P_p[i][digit_c_i], 1e-30)); the likelihood product underlying the
entry is strictly positive, so the cost is a finite real number, never an
infinity or a NaN, and when a probability entry for a digit of a candidate
is exactly 0 the clamped factor at that position is exactly the floor value
1e-30. -/
theorem assemble_cost_matrix_clamped_log
    (paperNumbers : List ℕ) (studentIDs : List Sid) (probabilities : ProbMap)
    (n : ℕ)
    (hsid : ∀ sid ∈ studentIDs, sid.length = n)
    (hmat : ∀ pn ∈ paperNumbers,
      ∃ M, probabilities.lookup pn = some M ∧ M.length = n) :
    ∃ cost, assembleCostMatrix paperNumbers studentIDs probabilities = some cost ∧
      cost.length = paperNumbers.length ∧
      ∀ p < paperNumbers.length, ∀ c < studentIDs.length,
        0 < (cost.getD p []).getD c 0 ∧
        -Real.log (((cost.getD p []).getD c 0 : ℚ) : ℝ) =
          -(((List.range n).map (fun i =>
            Real.log (max
              (((((probabilities.lookup (paperNumbers.getD p 0)).getD []).getD i
                []).getD ((studentIDs.getD c []).getD i 0) 0 : ℚ) : ℝ)
              ((clampFloor : ℚ) : ℝ)))).sum) ∧
        ∀ i < n,
          (((probabilities.lookup (paperNumbers.getD p 0)).getD []).getD i
              []).getD ((studentIDs.getD c []).getD i 0) 0 = 0 →
          clampedFactor ((probabilities.lookup (paperNumbers.getD p 0)).getD [])
              i ((studentIDs.getD c []).getD i 0) = clampFloor := by
  refine ⟨_, assembleCostMatrix_eq_map paperNumbers studentIDs probabilities n
    hsid hmat, by simp, ?_⟩
  intro p hp c hc
  have hrow := getD_map_of_lt (l := paperNumbers)
    (fun pn => studentIDs.map (fun sid =>
      ((List.range sid.length).map (fun i =>
        clampedFactor ((probabilities.lookup pn).getD []) i
          (sid.getD i 0))).prod)) hp ([] : List ℚ) (0 : ℕ)
  have hentry := getD_map_of_lt (l := studentIDs)
    (fun sid =>
      ((List.range sid.length).map (fun i =>
        clampedFactor ((probabilities.lookup (paperNumbers.getD p 0)).getD [])
          i (sid.getD i 0))).prod) hc (0 : ℚ) ([] : Sid)
  rw [hrow, hentry]
  have hslen : (studentIDs.getD c []).length = n :=
    hsid _ (getD_mem_of_lt hc _)
  rw [hslen]
  have hpos : ∀ x ∈ (List.range n).map (fun i =>
      clampedFactor ((probabilities.lookup (paperNumbers.getD p 0)).getD []) i
        ((studentIDs.getD c []).getD i 0)), 0 < x := by
    intro x hx
    rcases List.mem_map.mp hx with ⟨i, _, rfl⟩
    exact clampedFactor_pos _ _ _
  refine ⟨List.prod_pos hpos, ?_, ?_⟩
  · rw [rat_cast_list_prod, log_list_prod]
    · rw [List.map_map, List.map_map]
      congr 1
      congr 1
      apply List.map_congr_left
      intro i _
      show Real.log ((clampedFactor _ i _ : ℚ) : ℝ) = _
      rw [clampedFactor]
      congr 1
      push_cast
      rfl
    · intro x hx
      rcases List.mem_map.mp hx with ⟨q, hq, rfl⟩
      rcases List.mem_map.mp hq with ⟨i, _, rfl⟩
      exact_mod_cast clampedFactor_pos _ _ _
  · intro i _ hzero
    rw [clampedFactor, hzero]
    simp [clampFloor]

/-! Claim C2: the LAP predictor returns a one-to-one matching. -/

theorem injSeqs_mem_spec (cols k : ℕ) (s : List ℕ) (hs : s ∈ injSeqs cols k) :
    s.length = k ∧ s.Nodup ∧ ∀ c ∈ s, c < cols := by
  induction k generalizing s with
  | zero =>
    simp [injSeqs] at hs
    simp [hs]
  | succ k ih =>
    simp only [injSeqs, List.mem_flatMap, List.mem_map, List.mem_filter] at hs
    obtain ⟨t, ht, c, ⟨hcr, hcd⟩, rfl⟩ := hs
    obtain ⟨hlen, hnd, hlt⟩ := ih t ht
    have hcnot : c ∉ t := by simpa using hcd
    refine ⟨by simp [hlen], ?_, ?_⟩
    · rw [List.nodup_append]
      exact ⟨hnd, List.nodup_singleton c,
        fun a ha hac => hcnot (by simpa using (List.mem_singleton.mp hac) ▸ ha)⟩
    · intro x hx
      rcases List.mem_append.mp hx with h | h
      · exact hlt x h
      · rw [List.mem_singleton.mp h]
        exact List.mem_range.mp hcr

theorem injSeqs_ne_nil (cols k : ℕ) (h : k ≤ cols) : injSeqs cols k ≠ [] := by
  induction k with
  | zero => simp [injSeqs]
  | succ k ih =>
    have hk : k ≤ cols := Nat.le_of_succ_le h
    obtain ⟨s, hs⟩ := List.exists_mem_of_ne_nil _ (ih hk)
    obtain ⟨hlen, hnd, hlt⟩ := injSeqs_mem_spec cols k s hs
    have hex : ∃ c ∈ List.range cols, c ∉ s := by
      by_contra hno
      push_neg at hno
      have hsub : List.range cols ⊆ s := fun c hc => hno c hc
      have hle := (List.subperm_of_subset (List.nodup_range cols) hsub).length_le
      rw [List.length_range, hlen] at hle
      omega
    obtain ⟨c, hcr, hcs⟩ := hex
    intro hnil
    have hmem : s ++ [c] ∈ injSeqs cols (k + 1) := by
      simp only [injSeqs, List.mem_flatMap, List.mem_map, List.mem_filter]
      exact ⟨s, hs, c, ⟨hcr, by simpa⟩, rfl⟩
    rw [hnil] at hmem
    simp at hmem

theorem firstArgmax_isSome (f : α → ℚ) (l : List α) (h : l ≠ []) :
    ∃ a, firstArgmax f l = some a := by
  cases l with
  | nil => exact absurd rfl h
  | cons a t =>
    cases ht : firstArgmax f t with
    | none => exact ⟨a, by simp [firstArgmax, ht]⟩
    | some b =>
      by_cases hab : f a < f b
      · exact ⟨b, by simp [firstArgmax, ht, hab]⟩
      · exact ⟨a, by simp [firstArgmax, ht, hab]⟩

theorem firstArgmax_mem (f : α → ℚ) (l : List α) (a : α)
    (h : firstArgmax f l = some a) : a ∈ l := by
  induction l generalizing a with
  | nil => simp [firstArgmax] at h
  | cons b t ih =>
    cases ht : firstArgmax f t with
    | none =>
      simp [firstArgmax, ht] at h
      simp [h]
    | some c =>
      simp only [firstArgmax, ht] at h
      by_cases hbc : f b < f c
      · rw [if_pos hbc] at h
        injection h with h
        exact List.mem_cons_of_mem b (h ▸ ih c ht)
      · rw [if_neg hbc] at h
        injection h with h
        simp [← h]

theorem nodup_map_getD_of_lt {l : List α} (hnd : l.Nodup) (idx : List ℕ)
    (hidx : idx.Nodup) (hlt : ∀ i ∈ idx, i < l.length) (d : α) :
    (idx.map (fun i => l.getD i d)).Nodup := by
  apply List.Nodup.map_on ?_ hidx
  intro x hx y hy hxy
  have hxl := hlt x hx
  have hyl := hlt y hy
  rw [List.getD_eq_getElem l d hxl, List.getD_eq_getElem l d hyl] at hxy
  have hfin : (⟨x, hxl⟩ : Fin l.length) = ⟨y, hyl⟩ :=
    List.nodup_iff_injective_get.mp hnd (by simpa using hxy)
  simpa using congrArg Fin.val hfin

/-- Helper: structural properties of the modelled assignment solver, for
any cost matrix: the returned pairing uses pairwise distinct row indices
and pairwise distinct column indices, all within bounds, and has exactly
min(rows, cols) pairs. -/
theorem linearSumAssignment_spec (L : List (List ℚ)) :
    ((linearSumAssignment L).map Prod.fst).Nodup ∧
    ((linearSumAssignment L).map Prod.snd).Nodup ∧
    (∀ rc ∈ linearSumAssignment L,
      rc.1 < L.length ∧ rc.2 < (L.headD []).length) ∧
    (linearSumAssignment L).length = min L.length (L.headD []).length := by
  have hrowsmem : List.range (min L.length (L.headD []).length) ∈
      (List.range L.length).sublists.filter
        (fun rs => decide (rs.length = min L.length (L.headD []).length)) := by
    rw [List.mem_filter]
    constructor
    · rw [List.mem_sublists]
      exact List.range_sublist.mpr (Nat.min_le_left _ _)
    · simp
  obtain ⟨cs0, hcs0⟩ := List.exists_mem_of_ne_nil _
    (injSeqs_ne_nil (L.headD []).length (min L.length (L.headD []).length)
      (Nat.min_le_right _ _))
  have hcands_ne : ((List.range L.length).sublists.filter
      (fun rs => decide (rs.length = min L.length (L.headD []).length))).flatMap
        (fun rs => (injSeqs (L.headD []).length
          (min L.length (L.headD []).length)).map (fun cs => rs.zip cs)) ≠ [] := by
    intro hnl
    have hmem : (List.range (min L.length (L.headD []).length)).zip cs0 ∈
        ((List.range L.length).sublists.filter
          (fun rs => decide (rs.length = min L.length (L.headD []).length))).flatMap
            (fun rs => (injSeqs (L.headD []).length
              (min L.length (L.headD []).length)).map (fun cs => rs.zip cs)) :=
      List.mem_flatMap.mpr ⟨_, hrowsmem, List.mem_map.mpr ⟨cs0, hcs0, rfl⟩⟩
    rw [hnl] at hmem
    simp at hmem
  obtain ⟨m, hm⟩ := firstArgmax_isSome
    (fun m => (m.map (fun rc => (L.getD rc.1 []).getD rc.2 0)).prod) _ hcands_ne
  have hmmem := firstArgmax_mem _ _ _ hm
  have hLm : linearSumAssignment L = m := by
    simp only [linearSumAssignment]
    rw [hm]
  rw [hLm]
  simp only [List.mem_flatMap, List.mem_map, List.mem_filter] at hmmem
  obtain ⟨rs, ⟨hrs_sub, hrs_len⟩, cs, hcs, rfl⟩ := hmmem
  have hrs_len2 : rs.length = min L.length (L.headD []).length := by simpa using hrs_len
  have hrs_sl := List.mem_sublists.mp hrs_sub
  have hrs_nd : rs.Nodup := List.Nodup.sublist hrs_sl (List.nodup_range _)
  have hrs_lt : ∀ r ∈ rs, r < L.length :=
    fun r hr => List.mem_range.mp (hrs_sl.subset hr)
  obtain ⟨hcs_len, hcs_nd, hcs_lt⟩ := injSeqs_mem_spec _ _ cs hcs
  have hfst : (rs.zip cs).map Prod.fst = rs :=
    List.map_fst_zip rs cs (by rw [hrs_len2, hcs_len])
  have hsnd : (rs.zip cs).map Prod.snd = cs :=
    List.map_snd_zip rs cs (by rw [hrs_len2, hcs_len])
  refine ⟨by rw [hfst]; exact hrs_nd, by rw [hsnd]; exact hcs_nd, ?_, ?_⟩
  · intro rc hrc
    obtain ⟨h1, h2⟩ := List.of_mem_zip hrc
    exact ⟨hrs_lt _ h1, hcs_lt _ h2⟩
  · rw [List.length_zip, hrs_len2, hcs_len]
    simp

/-- C2: For every non-degenerate input, a non-empty duplicate-free list of
paper numbers, a non-empty duplicate-free candidate roster of length-n IDs,
and a probability matrix of length n for every listed paper, the LAP
predictor returns a list of (paper, student_id, certainty) triples in which
no student_id appears for two different papers and no paper appears twice:
the returned pairing is a one-to-one matching of min(papers, candidates)
pairs between papers and candidate IDs. -/
theorem lap_predictor_one_to_one
    (paperNumbers : List ℕ) (studentIDs : List Sid) (probabilities : ProbMap)
    (n : ℕ)
    (hpne : paperNumbers ≠ []) (hpnd : paperNumbers.Nodup)
    (hsne : studentIDs ≠ []) (hsnd : studentIDs.Nodup)
    (hsid : ∀ sid ∈ studentIDs, sid.length = n)
    (hmat : ∀ pn ∈ paperNumbers,
      ∃ M, probabilities.lookup pn = some M ∧ M.length = n) :
    ∃ preds, lapPredictor paperNumbers studentIDs probabilities = some preds ∧
      preds.length = min paperNumbers.length studentIDs.length ∧
      (preds.map (fun t => t.1)).Nodup ∧
      (preds.map (fun t => t.2.1)).Nodup := by
  have hcost := assembleCostMatrix_eq_map paperNumbers studentIDs probabilities n
    hsid hmat
  have hlap : lapPredictor paperNumbers studentIDs probabilities =
      some ((linearSumAssignment (paperNumbers.map (fun pn =>
        studentIDs.map (fun sid =>
          ((List.range sid.length).map (fun i =>
            clampedFactor ((probabilities.lookup pn).getD []) i
              (sid.getD i 0))).prod)))).map
        (fun rc =>
          (paperNumbers.getD rc.1 0, studentIDs.getD rc.2 [],
            sidProd ((probabilities.lookup (paperNumbers.getD rc.1 0)).getD [])
              (studentIDs.getD rc.2 [])))) := by
    simp only [lapPredictor]
    rw [hcost]
  obtain ⟨hnd1, hnd2, hbounds, hlen⟩ := linearSumAssignment_spec
    (paperNumbers.map (fun pn => studentIDs.map (fun sid =>
      ((List.range sid.length).map (fun i =>
        clampedFactor ((probabilities.lookup pn).getD []) i
          (sid.getD i 0))).prod)))
  have hclen : (paperNumbers.map (fun pn => studentIDs.map (fun sid =>
      ((List.range sid.length).map (fun i =>
        clampedFactor ((probabilities.lookup pn).getD []) i
          (sid.getD i 0))).prod))).length = paperNumbers.length := by simp
  have hhead : ((paperNumbers.map (fun pn => studentIDs.map (fun sid =>
      ((List.range sid.length).map (fun i =>
        clampedFactor ((probabilities.lookup pn).getD []) i
          (sid.getD i 0))).prod))).headD []).length = studentIDs.length := by
    cases paperNumbers with
    | nil => exact absurd rfl hpne
    | cons p ps => simp
  refine ⟨_, hlap, ?_, ?_, ?_⟩
  · rw [List.length_map, hlen, hclen, hhead]
  · rw [List.map_map]
    have hcomp : ((linearSumAssignment (paperNumbers.map (fun pn =>
        studentIDs.map (fun sid =>
          ((List.range sid.length).map (fun i =>
            clampedFactor ((probabilities.lookup pn).getD []) i
              (sid.getD i 0))).prod)))).map
        ((fun t : ℕ × Sid × ℚ => t.1) ∘
          (fun rc : ℕ × ℕ =>
            (paperNumbers.getD rc.1 0, studentIDs.getD rc.2 [],
              sidProd ((probabilities.lookup (paperNumbers.getD rc.1 0)).getD [])
                (studentIDs.getD rc.2 []))))) =
        ((linearSumAssignment (paperNumbers.map (fun pn =>
          studentIDs.map (fun sid =>
            ((List.range sid.length).map (fun i =>
              clampedFactor ((probabilities.lookup pn).getD []) i
                (sid.getD i 0))).prod)))).map Prod.fst).map
          (fun r => paperNumbers.getD r 0) := by
      rw [List.map_map]
      rfl
    rw [hcomp]
    apply nodup_map_getD_of_lt hpnd _ hnd1 ?_ 0
    intro i hi
    rcases List.mem_map.mp hi with ⟨rc, hrc, rfl⟩
    have hb := (hbounds rc hrc).1
    rwa [hclen] at hb
  · rw [List.map_map]
    have hcomp : ((linearSumAssignment (paperNumbers.map (fun pn =>
        studentIDs.map (fun sid =>
          ((List.range sid.length).map (fun i =>
            clampedFactor ((probabilities.lookup pn).getD []) i
              (sid.getD i 0))).prod)))).map
        ((fun t : ℕ × Sid × ℚ => t.2.1) ∘
          (fun rc : ℕ × ℕ =>
            (paperNumbers.getD rc.1 0, studentIDs.getD rc.2 [],
              sidProd ((probabilities.lookup (paperNumbers.getD rc.1 0)).getD [])
                (studentIDs.getD rc.2 []))))) =
        ((linearSumAssignment (paperNumbers.map (fun pn =>
          studentIDs.map (fun sid =>
            ((List.range sid.length).map (fun i =>
              clampedFactor ((probabilities.lookup pn).getD []) i
                (sid.getD i 0))).prod)))).map Prod.snd).map
          (fun c => studentIDs.getD c []) := by
      rw [List.map_map]
      rfl
    rw [hcomp]
    apply nodup_map_getD_of_lt hsnd _ hnd2 ?_ []
    intro i hi
    rcases List.mem_map.mp hi with ⟨rc, hrc, rfl⟩
    have hb := (hbounds rc hrc).2
    rwa [hhead] at hb

/-- C2 witness: the LAP predictor at a concrete two-paper, two-candidate
instance returns a two-pair one-to-one matching. -/
theorem lap_predictor_one_to_one_witness :
    ∃ preds,
      lapPredictor [1, 2] [[1], [2]]
          [(1, [[0, 1, 0, 0, 0, 0, 0, 0, 0, 0]]),
           (2, [[0, 0, 1, 0, 0, 0, 0, 0, 0, 0]])] = some preds ∧
      preds.length = 2 ∧
      (preds.map (fun t => t.1)).Nodup ∧
      (preds.map (fun t => t.2.1)).Nodup := by
  obtain ⟨preds, h1, h2, h3, h4⟩ := lap_predictor_one_to_one [1, 2] [[1], [2]]
    [(1, [[0, 1, 0, 0, 0, 0, 0, 0, 0, 0]]),
     (2, [[0, 0, 1, 0, 0, 0, 0, 0, 0, 0]])] 1
    (by decide) (by decide) (by decide) (by decide) (by decide)
    (by
      intro pn hpn
      rcases List.mem_cons.mp hpn with h | h
      · subst h
        exact ⟨_, rfl, rfl⟩
      · rcases List.mem_cons.mp h with h2 | h2
        · subst h2
          exact ⟨_, rfl, rfl⟩
        · simp at h2)
  exact ⟨preds, h1, by simpa using h2, h3, h4⟩

/-! Claim C5: upsert semantics of add_or_change_ID_prediction. -/

theorem filter_map_of_pred (p : α → Bool) (f : α → α) (l : List α)
    (hpf : ∀ r, p (f r) = p r) (hfix : ∀ r, p r = true → f r = r) :
    (l.map f).filter p = l.filter p := by
  induction l with
  | nil => rfl
  | cons r t ih =>
    simp only [List.map_cons, List.filter_cons, hpf r]
    cases hp : p r with
    | true =>
      rw [hfix r hp]
      simp [ih]
    | false => simp [ih]

theorem filter_map_comm (p : α → Bool) (f : α → α) (l : List α)
    (hpf : ∀ r, p (f r) = p r) :
    (l.map f).filter p = (l.filter p).map f := by
  induction l with
  | nil => rfl
  | cons r t ih =>
    simp only [List.map_cons, List.filter_cons, hpf r]
    cases hp : p r <;> simp [hp, ih]

theorem distinctKeys_addOrChange (db : List PredRow) (user paperNum : ℕ)
    (studentId : Sid) (certainty : ℚ) (predictor : String)
    (h : distinctKeys db) :
    distinctKeys (addOrChangeIDPrediction db user paperNum studentId certainty
      predictor) := by
  unfold addOrChangeIDPrediction
  split
  · unfold distinctKeys
    apply List.Pairwise.map _ _ h
    intro a b hab
    by_cases hca : a.paper = paperNum ∧ a.predictor = predictor <;>
      by_cases hcb : b.paper = paperNum ∧ b.predictor = predictor
    · rw [if_pos hca, if_pos hcb]
      exact hab
    · rw [if_pos hca, if_neg hcb]
      exact hab
    · rw [if_neg hca, if_pos hcb]
      exact hab
    · rw [if_neg hca, if_neg hcb]
      exact hab
  · unfold distinctKeys
    rw [List.pairwise_append]
    refine ⟨h, List.pairwise_singleton _ _, ?_⟩
    intro a ha b hb
    rw [List.mem_singleton.mp hb]
    intro heq
    rename_i hany
    rw [List.any_eq_true] at hany
    apply hany
    refine ⟨a, ha, ?_⟩
    have h1 : a.paper = paperNum := congrArg Prod.fst heq
    have h2 : a.predictor = predictor := congrArg Prod.snd heq
    simp [h1, h2]

theorem rowsFor_addOrChange_ne (db : List PredRow) (user paperNum : ℕ)
    (studentId : Sid) (certainty : ℚ) (predictor : String) (p2 : ℕ) (k2 : String)
    (hne : ¬(p2 = paperNum ∧ k2 = predictor)) :
    rowsFor (addOrChangeIDPrediction db user paperNum studentId certainty
      predictor) p2 k2 = rowsFor db p2 k2 := by
  unfold addOrChangeIDPrediction rowsFor
  split
  · have hpf : ∀ r : PredRow,
        (decide (((if r.paper = paperNum ∧ r.predictor = predictor then
            { r with student_id := studentId, certainty := certainty }
          else r) : PredRow).paper = p2 ∧
          ((if r.paper = paperNum ∧ r.predictor = predictor then
            { r with student_id := studentId, certainty := certainty }
          else r) : PredRow).predictor = k2)) =
        decide (r.paper = p2 ∧ r.predictor = k2) := by
      intro r
      by_cases hc : r.paper = paperNum ∧ r.predictor = predictor
      · rw [if_pos hc]
      · rw [if_neg hc]
    have hfix : ∀ r : PredRow,
        decide (r.paper = p2 ∧ r.predictor = k2) = true →
        (if r.paper = paperNum ∧ r.predictor = predictor then
          { r with student_id := studentId, certainty := certainty }
        else r) = r := by
      intro r hp
      have hr := of_decide_eq_true hp
      rw [if_neg]
      intro hcc
      exact hne ⟨hr.1.symm.trans hcc.1, hr.2.symm.trans hcc.2⟩
    exact filter_map_of_pred _ _ _ hpf hfix
  · rw [List.filter_append]
    have hne2 : ¬(paperNum = p2 ∧ predictor = k2) :=
      fun hx => hne ⟨hx.1.symm, hx.2.symm⟩
    have hsing : List.filter (fun r => decide (r.paper = p2 ∧ r.predictor = k2))
        ([⟨paperNum, predictor, studentId, certainty, user⟩] : List PredRow) =
        [] := by
      rw [List.filter_cons]
      rw [show (decide ((⟨paperNum, predictor, studentId, certainty,
        user⟩ : PredRow).paper = p2 ∧
        (⟨paperNum, predictor, studentId, certainty,
          user⟩ : PredRow).predictor = k2)) = false by simpa using hne2]
      simp
    rw [hsing, List.append_nil]

theorem rowsFor_atMostOne (db : List PredRow) (h : distinctKeys db)
    (p : ℕ) (k : String) :
    rowsFor db p k = [] ∨
      ∃ r, rowsFor db p k = [r] ∧ r.paper = p ∧ r.predictor = k := by
  induction db with
  | nil => exact Or.inl rfl
  | cons r t ih =>
    have ht : distinctKeys t := List.Pairwise.of_cons h
    by_cases hc : r.paper = p ∧ r.predictor = k
    · have hall : ∀ b ∈ t, ¬(b.paper = p ∧ b.predictor = k) := by
        intro b hb hbk
        exact (List.pairwise_cons.mp h).1 b hb
          (by rw [hc.1, hc.2, hbk.1, hbk.2])
      have hft : List.filter
          (fun r => decide (r.paper = p ∧ r.predictor = k)) t = [] :=
        List.filter_eq_nil_iff.mpr (fun b hb => by simpa using hall b hb)
      right
      refine ⟨r, ?_, hc.1, hc.2⟩
      show List.filter _ (r :: t) = [r]
      rw [List.filter_cons]
      rw [show (decide (r.paper = p ∧ r.predictor = k)) = true by simpa using hc]
      rw [if_pos rfl, hft]
    · have hstep : rowsFor (r :: t) p k = rowsFor t p k := by
        show List.filter _ (r :: t) = _
        rw [List.filter_cons]
        rw [show (decide (r.paper = p ∧ r.predictor = k)) = false by
          simpa using hc]
        rw [if_neg (by simp)]
        exact rfl
      rw [hstep]
      exact ih ht

theorem rowsFor_addOrChange_self (db : List PredRow) (user paperNum : ℕ)
    (studentId : Sid) (certainty : ℚ) (predictor : String)
    (h : distinctKeys db) :
    ∃ u, rowsFor (addOrChangeIDPrediction db user paperNum studentId certainty
      predictor) paperNum predictor =
      [⟨paperNum, predictor, studentId, certainty, u⟩] := by
  unfold addOrChangeIDPrediction
  split
  · rename_i hany
    rcases rowsFor_atMostOne db h paperNum predictor with h0 | ⟨r0, h0, hr0p, hr0k⟩
    · exfalso
      rw [List.any_eq_true] at hany
      obtain ⟨x, hx, hxp⟩ := hany
      have hxin : x ∈ rowsFor db paperNum predictor :=
        List.mem_filter.mpr ⟨hx, hxp⟩
      rw [h0] at hxin
      simp at hxin
    · refine ⟨r0.user, ?_⟩
      have hpf : ∀ r : PredRow,
          (decide (((if r.paper = paperNum ∧ r.predictor = predictor then
              { r with student_id := studentId, certainty := certainty }
            else r) : PredRow).paper = paperNum ∧
            ((if r.paper = paperNum ∧ r.predictor = predictor then
              { r with student_id := studentId, certainty := certainty }
            else r) : PredRow).predictor = predictor)) =
          decide (r.paper = paperNum ∧ r.predictor = predictor) := by
        intro r
        by_cases hc : r.paper = paperNum ∧ r.predictor = predictor
        · rw [if_pos hc]
        · rw [if_neg hc]
      have hcomm := filter_map_comm
        (fun r : PredRow => decide (r.paper = paperNum ∧ r.predictor = predictor))
        (fun r : PredRow =>
          if r.paper = paperNum ∧ r.predictor = predictor then
            { r with student_id := studentId, certainty := certainty }
          else r) db hpf
      show List.filter _ (List.map _ db) = _
      rw [hcomm]
      rw [show List.filter (fun r : PredRow =>
        decide (r.paper = paperNum ∧ r.predictor = predictor)) db = [r0] from h0]
      rw [List.map_cons, List.map_nil, if_pos ⟨hr0p, hr0k⟩]
      cases r0 with
      | mk rp rk rs rc ru =>
        simp at hr0p hr0k
        simp [hr0p, hr0k]
  · rename_i hany
    refine ⟨user, ?_⟩
    show List.filter _ (db ++ _) = _
    rw [List.filter_append]
    have h1 : List.filter
        (fun r : PredRow => decide (r.paper = paperNum ∧ r.predictor = predictor))
        db = [] := by
      apply List.filter_eq_nil_iff.mpr
      intro a ha hpa
      apply hany
      rw [List.any_eq_true]
      exact ⟨a, ha, hpa⟩
    rw [h1]
    rw [List.nil_append, List.filter_cons]
    rw [show (decide ((⟨paperNum, predictor, studentId, certainty,
      user⟩ : PredRow).paper = paperNum ∧
      (⟨paperNum, predictor, studentId, certainty,
        user⟩ : PredRow).predictor = predictor)) = true by simp]
    rw [if_pos rfl]
    rfl

theorem distinctKeys_writePredictions (db : List PredRow) (user : ℕ)
    (preds : List (ℕ × Sid × ℚ)) (kind : String) (h : distinctKeys db) :
    distinctKeys (writePredictions db user preds kind) := by
  induction preds generalizing db with
  | nil => exact h
  | cons a t ih =>
    simp only [writePredictions, List.foldl_cons]
    exact ih _ (distinctKeys_addOrChange db user a.1 a.2.1 a.2.2 kind h)

theorem rowsFor_writePredictions_ne (db : List PredRow) (user : ℕ)
    (preds : List (ℕ × Sid × ℚ)) (kind : String) (p2 : ℕ) (k2 : String)
    (hne : ∀ t ∈ preds, ¬(p2 = t.1 ∧ k2 = kind)) :
    rowsFor (writePredictions db user preds kind) p2 k2 = rowsFor db p2 k2 := by
  induction preds generalizing db with
  | nil => rfl
  | cons a t ih =>
    simp only [writePredictions, List.foldl_cons]
    have hstep := rowsFor_addOrChange_ne db user a.1 a.2.1 a.2.2 kind p2 k2
      (hne a (List.mem_cons_self a t))
    have htail := ih (addOrChangeIDPrediction db user a.1 a.2.1 a.2.2 kind)
      (fun b hb => hne b (List.mem_cons_of_mem a hb))
    simp only [writePredictions] at htail
    rw [htail, hstep]

theorem rowsFor_writePredictions_self (db : List PredRow) (user : ℕ)
    (preds : List (ℕ × Sid × ℚ)) (kind : String) (h : distinctKeys db)
    (hnd : (preds.map (fun t => t.1)).Nodup) :
    ∀ t ∈ preds, ∃ u,
      rowsFor (writePredictions db user preds kind) t.1 kind =
        [⟨t.1, kind, t.2.1, t.2.2, u⟩] := by
  induction preds generalizing db with
  | nil => intro t ht; simp at ht
  | cons a rest ih =>
    intro t ht
    simp only [writePredictions, List.foldl_cons]
    rcases List.mem_cons.mp ht with rfl | htr
    · obtain ⟨u, hu⟩ := rowsFor_addOrChange_self db user t.1 t.2.1 t.2.2 kind h
      refine ⟨u, ?_⟩
      have hndc : t.1 ∉ rest.map (fun t => t.1) ∧
          (rest.map (fun t => t.1)).Nodup :=
        List.nodup_cons.mp (by simpa using hnd)
      have hanot : ∀ b ∈ rest, ¬(t.1 = b.1 ∧ kind = kind) := by
        intro b hb hx
        exact hndc.1 (List.mem_map.mpr ⟨b, hb, hx.1.symm⟩)
      have hframe := rowsFor_writePredictions_ne
        (addOrChangeIDPrediction db user t.1 t.2.1 t.2.2 kind) user rest kind
        t.1 kind hanot
      simp only [writePredictions] at hframe
      rw [hframe, hu]
    · have hnd2 : (rest.map (fun t => t.1)).Nodup :=
        (List.nodup_cons.mp (by simpa using hnd)).2
      exact ih (addOrChangeIDPrediction db user a.1 a.2.1 a.2.2 kind)
        (distinctKeys_addOrChange db user a.1 a.2.1 a.2.2 kind h) hnd2 t htr

theorem addOrChange_id (db : List PredRow) (user paperNum : ℕ)
    (studentId : Sid) (certainty : ℚ) (predictor : String) (u0 : ℕ)
    (h : rowsFor db paperNum predictor =
      [⟨paperNum, predictor, studentId, certainty, u0⟩]) :
    addOrChangeIDPrediction db user paperNum studentId certainty predictor =
      db := by
  have hmem : (⟨paperNum, predictor, studentId, certainty, u0⟩ : PredRow) ∈
      rowsFor db paperNum predictor := by
    rw [h]
    simp
  have hmemdb := (List.mem_filter.mp hmem).1
  unfold addOrChangeIDPrediction
  rw [if_pos]
  · have hid : ∀ r ∈ db,
        (if r.paper = paperNum ∧ r.predictor = predictor then
          { r with student_id := studentId, certainty := certainty }
        else r) = r := by
      intro r hr
      by_cases hc : r.paper = paperNum ∧ r.predictor = predictor
      · rw [if_pos hc]
        have hrr : r ∈ rowsFor db paperNum predictor :=
          List.mem_filter.mpr ⟨hr, by simpa using hc⟩
        rw [h] at hrr
        rw [List.mem_singleton.mp hrr]
      · rw [if_neg hc]
    calc db.map (fun r =>
          if r.paper = paperNum ∧ r.predictor = predictor then
            { r with student_id := studentId, certainty := certainty }
          else r)
        = db.map id := List.map_congr_left hid
      _ = db := List.map_id db
  · rw [List.any_eq_true]
    exact ⟨_, hmemdb, by simp⟩

theorem writePredictions_id (db : List PredRow) (user : ℕ)
    (preds : List (ℕ × Sid × ℚ)) (kind : String)
    (h : ∀ t ∈ preds, ∃ u, rowsFor db t.1 kind =
      [⟨t.1, kind, t.2.1, t.2.2, u⟩]) :
    writePredictions db user preds kind = db := by
  induction preds with
  | nil => rfl
  | cons a rest ih =>
    simp only [writePredictions, List.foldl_cons]
    obtain ⟨u, hu⟩ := h a (List.mem_cons_self a rest)
    rw [addOrChange_id db user a.1 a.2.1 a.2.2 kind u hu]
    exact ih (fun t ht => h t (List.mem_cons_of_mem a ht))

/-- C5: add_or_change_ID_prediction upserts by the key (paper, predictor):
after any sequence of calls starting from a table with pairwise distinct
keys there is at most one prediction row per (paper, predictor) pair; a
call replaces that predictor and paper pair with exactly the written row,
and leaves every row of every other (paper, predictor-kind) pair unchanged;
and running a whole strategy write pass, one row per distinct paper, twice
with identical input leaves exactly the same rows as running it once. -/
theorem add_or_change_upsert_semantics :
    (∀ (db : List PredRow) (calls : List (ℕ × ℕ × Sid × ℚ × String)),
      distinctKeys db →
      distinctKeys (calls.foldl (fun d c =>
        addOrChangeIDPrediction d c.1 c.2.1 c.2.2.1 c.2.2.2.1 c.2.2.2.2) db)) ∧
    (∀ (db : List PredRow) (user paperNum : ℕ) (studentId : Sid)
        (certainty : ℚ) (predictor : String) (p2 : ℕ) (k2 : String),
      ¬(p2 = paperNum ∧ k2 = predictor) →
      rowsFor (addOrChangeIDPrediction db user paperNum studentId certainty
        predictor) p2 k2 = rowsFor db p2 k2) ∧
    (∀ (db : List PredRow) (user paperNum : ℕ) (studentId : Sid)
        (certainty : ℚ) (predictor : String),
      distinctKeys db →
      ∃ u, rowsFor (addOrChangeIDPrediction db user paperNum studentId
        certainty predictor) paperNum predictor =
        [⟨paperNum, predictor, studentId, certainty, u⟩]) ∧
    (∀ (db : List PredRow) (user : ℕ) (preds : List (ℕ × Sid × ℚ))
        (kind : String),
      distinctKeys db → (preds.map (fun t => t.1)).Nodup →
      writePredictions (writePredictions db user preds kind) user preds kind =
        writePredictions db user preds kind) := by
  refine ⟨?_, ?_, ?_, ?_⟩
  · intro db calls h
    induction calls generalizing db with
    | nil => exact h
    | cons c t ih =>
      simp only [List.foldl_cons]
      exact ih _ (distinctKeys_addOrChange db c.1 c.2.1 c.2.2.1 c.2.2.2.1
        c.2.2.2.2 h)
  · intro db user paperNum studentId certainty predictor p2 k2 hne
    exact rowsFor_addOrChange_ne db user paperNum studentId certainty predictor
      p2 k2 hne
  · intro db user paperNum studentId certainty predictor h
    exact rowsFor_addOrChange_self db user paperNum studentId certainty
      predictor h
  · intro db user preds kind h hnd
    exact writePredictions_id _ user preds kind
      (rowsFor_writePredictions_self db user preds kind h hnd)

/-- C5 witness: the upsert invariant and the idempotence of a strategy
write pass at a concrete table. -/
theorem add_or_change_upsert_semantics_witness :
    distinctKeys ([((0 : ℕ), (3 : ℕ), ([4] : Sid), (1 : ℚ),
        "MLGreedy")].foldl (fun d c =>
      addOrChangeIDPrediction d c.1 c.2.1 c.2.2.1 c.2.2.2.1 c.2.2.2.2)
      ([] : List PredRow)) ∧
    writePredictions (writePredictions [] 0 [((3 : ℕ), ([4] : Sid), (1 : ℚ))]
        "MLGreedy") 0 [((3 : ℕ), ([4] : Sid), (1 : ℚ))] "MLGreedy" =
      writePredictions [] 0 [((3 : ℕ), ([4] : Sid), (1 : ℚ))] "MLGreedy" := by
  constructor
  · exact add_or_change_upsert_semantics.1 []
      [(0, 3, [4], 1, "MLGreedy")] (by simp [distinctKeys])
  · exact add_or_change_upsert_semantics.2.2.2 [] 0 [(3, [4], 1)] "MLGreedy"
      (by simp [distinctKeys]) (by simp)

/-! Claims C7 and C9: segmentation failures, totality and silent exclusion. -/

theorem computeProbabilityHeatmap_foldl (imageFiles : List (ℕ × IdBoxImage))
    (numDigits : ℕ) (acc : List (ℕ × List (List ℚ))) :
    imageFiles.foldl
      (fun probabilities pf =>
        let probLists := getDigitProbabilities pf.2 numDigits
        if probLists.length = 0 then probabilities
        else if probLists.length ≠ numDigits then
          probabilities ++ [(pf.1, probLists)]
        else probabilities ++ [(pf.1, probLists)]) acc =
    acc ++ imageFiles.filterMap (fun pf =>
      if (getDigitProbabilities pf.2 numDigits).length = 0 then none
      else some (pf.1, getDigitProbabilities pf.2 numDigits)) := by
  induction imageFiles generalizing acc with
  | nil => simp
  | cons pf t ih =>
    simp only [List.foldl_cons, List.filterMap_cons]
    by_cases h0 : (getDigitProbabilities pf.2 numDigits).length = 0
    · rw [if_pos h0, if_pos h0, ih]
    · rw [if_neg h0, if_neg h0, ite_self, ih]
      simp [List.append_assoc]

/-- Helper: the heatmap builder is exactly a filterMap keeping the papers
whose digit reading produced a non-empty matrix. -/
theorem computeProbabilityHeatmap_eq_filterMap
    (imageFiles : List (ℕ × IdBoxImage)) (numDigits : ℕ) :
    computeProbabilityHeatmap imageFiles numDigits =
      imageFiles.filterMap (fun pf =>
        if (getDigitProbabilities pf.2 numDigits).length = 0 then none
        else some (pf.1, getDigitProbabilities pf.2 numDigits)) := by
  unfold computeProbabilityHeatmap
  rw [computeProbabilityHeatmap_foldl]
  simp

theorem getDigitProbabilities_len (img : IdBoxImage) (numDigits : ℕ) :
    getDigitProbabilities img numDigits = [] ∨
      (getDigitProbabilities img numDigits).length = numDigits := by
  cases img with
  | none => exact Or.inl rfl
  | some cells =>
    cases hm : optionMapList (fun i => cells.getD i none)
        (List.range numDigits) with
    | none =>
      left
      show getDigitProbs cells numDigits = []
      unfold getDigitProbs
      rw [hm]
    | some l =>
      right
      show (getDigitProbs cells numDigits).length = numDigits
      unfold getDigitProbs
      rw [hm]
      simpa using optionMapList_some_length hm

theorem getDigitProbabilities_fail (img : IdBoxImage) (numDigits : ℕ)
    (h : img = none ∨ ∃ cells, img = some cells ∧
      ∃ i < numDigits, cells.getD i none = none) :
    getDigitProbabilities img numDigits = [] := by
  rcases h with rfl | ⟨cells, rfl, i, hi, hc⟩
  · rfl
  · show getDigitProbs cells numDigits = []
    unfold getDigitProbs
    rw [optionMapList_none_of_mem (List.mem_range.mpr hi) hc]

/-- C7: Every digit-probability matrix stored by the heatmap builder has
length exactly num_digits, one probability vector per digit position, and a
paper whose ID box fails segmentation, a too-small box or zero contours in
some cell, has no entry at all in the heatmap: absence is total per paper,
never a partial or wrong-length matrix. -/
theorem heatmap_matrices_total (imageFiles : List (ℕ × IdBoxImage))
    (numDigits : ℕ) (hkeys : (imageFiles.map Prod.fst).Nodup) :
    (∀ e ∈ computeProbabilityHeatmap imageFiles numDigits,
      e.2.length = numDigits) ∧
    (∀ pf ∈ imageFiles,
      (pf.2 = none ∨ ∃ cells, pf.2 = some cells ∧
        ∃ i < numDigits, cells.getD i none = none) →
      ∀ Mx, (pf.1, Mx) ∉ computeProbabilityHeatmap imageFiles numDigits) := by
  constructor
  · intro e he
    rw [computeProbabilityHeatmap_eq_filterMap] at he
    obtain ⟨pf, _, hpf⟩ := List.mem_filterMap.mp he
    by_cases h0 : (getDigitProbabilities pf.2 numDigits).length = 0
    · rw [if_pos h0] at hpf
      exact absurd hpf (by simp)
    · rw [if_neg h0] at hpf
      rcases getDigitProbabilities_len pf.2 numDigits with hl | hl
      · exact absurd (by rw [hl]; rfl) h0
      · injection hpf with hpf
        rw [← hpf]
        exact hl
  · intro pf hpf hfail Mx hmem
    rw [computeProbabilityHeatmap_eq_filterMap] at hmem
    obtain ⟨pf2, hpf2, hsome⟩ := List.mem_filterMap.mp hmem
    by_cases h0 : (getDigitProbabilities pf2.2 numDigits).length = 0
    · rw [if_pos h0] at hsome
      exact absurd hsome (by simp)
    · rw [if_neg h0] at hsome
      injection hsome with hsome
      have hfst : pf2.1 = pf.1 := (Prod.ext_iff.mp hsome).1
      have heq : pf2 = pf := List.inj_on_of_nodup_map hkeys hpf2 hpf hfst
      apply h0
      rw [heq, getDigitProbabilities_fail pf.2 numDigits hfail]
      rfl

/-- C7 witness: a concrete three-paper batch, one fine, one with a failing
cell, one with a too-small box. -/
theorem heatmap_matrices_total_witness :
    (∀ e ∈ computeProbabilityHeatmap
        [(1, some [some [1]]), (2, some [none]), (3, none)] 1,
      e.2.length = 1) ∧
    ∀ Mx, (2, Mx) ∉ computeProbabilityHeatmap
        [(1, some [some [1]]), (2, some [none]), (3, none)] 1 := by
  obtain ⟨h1, h2⟩ := heatmap_matrices_total
    [(1, some [some [1]]), (2, some [none]), (3, none)] 1 (by simp)
  exact ⟨h1, h2 (2, some [none]) (by simp)
    (Or.inr ⟨[none], rfl, 0, by norm_num, rfl⟩)⟩

theorem saveAllIdBoxes_foldl (papers : List (ℕ × Option ℕ))
    (acc : List (ℕ × ℕ)) :
    papers.foldl
      (fun acc p =>
        match p.2 with
        | none => acc
        | some bytes => acc ++ [(p.1, bytes)]) acc =
      acc ++ papers.filterMap (fun p => p.2.map (fun b => (p.1, b))) := by
  induction papers generalizing acc with
  | nil => simp
  | cons p t ih =>
    cases hb : p.2 with
    | none => simp [List.foldl_cons, List.filterMap_cons, hb, ih]
    | some b =>
      simp [List.foldl_cons, List.filterMap_cons, hb, ih, List.append_assoc]

/-- C9 amended: per-page failures are recoverable, a paper with no
extracted region or failed segmentation is excluded from later stages while
the batch continues over the remaining papers, but the exclusions are not
reported: the outputs carry the successes only. -/
theorem per_page_failures_skip_and_continue
    (scannedPapers : List (ℕ × Option ℕ)) (prenamedPapers : List ℕ)
    (imageFiles : List (ℕ × IdBoxImage)) (numDigits : ℕ) :
    saveAllIdBoxes scannedPapers prenamedPapers =
      (scannedPapers.filter (fun p => decide (p.1 ∉ prenamedPapers))).filterMap
        (fun p => p.2.map (fun b => (p.1, b))) ∧
    computeProbabilityHeatmap imageFiles numDigits =
      imageFiles.filterMap (fun pf =>
        if (getDigitProbabilities pf.2 numDigits).length = 0 then none
        else some (pf.1, getDigitProbabilities pf.2 numDigits)) := by
  constructor
  · unfold saveAllIdBoxes
    rw [saveAllIdBoxes_foldl]
    simp
  · exact computeProbabilityHeatmap_eq_filterMap imageFiles numDigits

/-- C9 counterexample: a batch in which paper 2 fails extraction, or fails
segmentation, produces output identical to a batch in which paper 2 never
existed; no summary, count or report of the exclusion is returned, so the
aggregated-reporting part of the claim fails on the code. -/
theorem per_page_failures_unreported :
    saveAllIdBoxes [(1, some 7), (2, none)] [] =
      saveAllIdBoxes [(1, some 7)] [] ∧
    computeProbabilityHeatmap [(1, some [some [1]]), (2, some [none])] 1 =
      computeProbabilityHeatmap [(1, some [some [1]])] 1 := by
  exact ⟨rfl, rfl⟩

/-! Claim C8: no single-flight guard on the background ID-reading task. -/

/-- C8: evaluation of the task-creation path at the failing input: with one
ID-reading tracker already in RUNNING state, a second invocation is not
rejected; the source unconditionally appends a new STARTING tracker, its
TODO comment admitting the missing guard, leaving two tasks simultaneously
in a non-terminal status. -/
theorem second_invocation_not_rejected :
    runTheIdReaderInBackgroundViaHuey [HueyStatus.running] =
      [HueyStatus.running, HueyStatus.starting] ∧
    ((runTheIdReaderInBackgroundViaHuey [HueyStatus.running]).filter
      isInFlight).length = 2 := by
  exact ⟨rfl, rfl⟩

/-! Claim C6: which papers and roster IDs each strategy considers. -/

theorem optionMapList_cons_some {f : α → Option β} {a : α} {t : List α}
    {out : List β} (h : optionMapList f (a :: t) = some out) :
    ∃ b bt, out = b :: bt ∧ f a = some b ∧ optionMapList f t = some bt := by
  cases hfa : f a with
  | none => simp [optionMapList, hfa] at h
  | some b =>
    cases hft : optionMapList f t with
    | none => simp [optionMapList, hfa, hft] at h
    | some bt =>
      simp [optionMapList, hfa, hft] at h
      exact ⟨b, bt, h.symm, rfl, rfl⟩

/-- C6 amended: in make_id_predictions only Strategy B restricts itself to
unidentified papers and unconsumed roster IDs: whenever run_lap_solver
completes, every written triple names a paper from the unidentified list
and a student ID not among the already-matched ones, for a duplicate-free
roster; Strategy A, by contrast, writes exactly one MLGreedy row for every
paper of the probabilities dict, identified or not, choosing from the full
unfiltered roster. -/
theorem strategies_paper_and_roster_filtering :
    (∀ (db : List PredRow) (user : ℕ) (am : List Sid) (up : List ℕ)
        (sids : List Sid) (probs : ProbMap),
      sids.Nodup →
      (runLapSolver db user am up sids probs).2.2 = Except.ok () →
      ∃ preds,
        lapPredictor (up.filter (fun n => (probs.lookup n).isSome))
          ((runLapSolver db user am up sids probs).2.1) probs = some preds ∧
        (runLapSolver db user am up sids probs).1 =
          writePredictions db user preds "MLLAP" ∧
        ∀ t ∈ preds, t.1 ∈ up ∧ t.2.1 ∉ am) ∧
    (∀ (db : List PredRow) (user : ℕ) (sids : List Sid) (probs : ProbMap),
      sids ≠ [] →
      ∃ preds, greedyPredictor sids probs = some preds ∧
        runGreedy db user sids probs =
          some (writePredictions db user preds "MLGreedy") ∧
        preds.map (fun t => t.1) = probs.map Prod.fst ∧
        ∀ t ∈ preds, t.2.1 ∈ sids) := by
  constructor
  · intro db user am up sids probs hnd hok
    rw [runLapSolver_roster]
    by_cases hc : (up.filter (fun n => (probs.lookup n).isSome)).length = 0 ∨
        (am.foldl (fun l s => l.erase s) sids).length = 0
    · exfalso
      simp only [runLapSolver] at hok
      rw [if_pos hc] at hok
      simp at hok
    · cases hl : lapPredictor (up.filter (fun n => (probs.lookup n).isSome))
          (am.foldl (fun l s => l.erase s) sids) probs with
      | none =>
        exfalso
        simp only [runLapSolver] at hok
        rw [if_neg hc, hl] at hok
        simp at hok
      | some preds =>
        refine ⟨preds, rfl, ?_, ?_⟩
        · simp only [runLapSolver]
          rw [if_neg hc, hl]
        · cases hac : assembleCostMatrix
              (up.filter (fun n => (probs.lookup n).isSome))
              (am.foldl (fun l s => l.erase s) sids) probs with
          | none =>
            exfalso
            simp only [lapPredictor] at hl
            rw [hac] at hl
            simp at hl
          | some cost =>
            have hpreds : preds = (linearSumAssignment cost).map (fun rc =>
                ((up.filter (fun n => (probs.lookup n).isSome)).getD rc.1 0,
                  (am.foldl (fun l s => l.erase s) sids).getD rc.2 [],
                  sidProd ((probs.lookup ((up.filter
                    (fun n => (probs.lookup n).isSome)).getD rc.1 0)).getD [])
                    ((am.foldl (fun l s => l.erase s) sids).getD rc.2 []))) := by
              simp only [lapPredictor] at hl
              rw [hac] at hl
              injection hl with hl
              exact hl.symm
            obtain ⟨_, _, hbounds, _⟩ := linearSumAssignment_spec cost
            have hclen := optionMapList_some_length hac
            have hne1 : up.filter (fun n => (probs.lookup n).isSome) ≠ [] := by
              intro hx
              exact hc (Or.inl (by rw [hx]; rfl))
            have hhead : (cost.headD []).length =
                (am.foldl (fun l s => l.erase s) sids).length := by
              cases hpt : up.filter (fun n => (probs.lookup n).isSome) with
              | nil => exact absurd hpt hne1
              | cons p0 ps =>
                rw [hpt] at hac
                obtain ⟨row0, rest, hcost, hf0, -⟩ := optionMapList_cons_some hac
                cases hlk : probs.lookup p0 with
                | none =>
                  exfalso
                  rw [show (match probs.lookup p0 with
                    | none => none
                    | some M => optionMapList (fun sid => logLikelihoodRep sid M)
                        (am.foldl (fun l s => l.erase s) sids)) = none from by
                      rw [hlk]] at hf0
                  exact Option.noConfusion hf0
                | some M =>
                  rw [show (match probs.lookup p0 with
                    | none => none
                    | some M => optionMapList (fun sid => logLikelihoodRep sid M)
                        (am.foldl (fun l s => l.erase s) sids)) =
                    optionMapList (fun sid => logLikelihoodRep sid M)
                      (am.foldl (fun l s => l.erase s) sids) from by
                      rw [hlk]] at hf0
                  rw [hcost]
                  simpa using optionMapList_some_length hf0
            intro t ht
            rw [hpreds] at ht
            rcases List.mem_map.mp ht with ⟨rc, hrc, rfl⟩
            obtain ⟨hb1, hb2⟩ := hbounds rc hrc
            rw [hclen] at hb1
            rw [hhead] at hb2
            constructor
            · have hmem := getD_mem_of_lt hb1 (0 : ℕ)
              exact (List.mem_filter.mp hmem).1
            · have hmem := getD_mem_of_lt hb2 ([] : Sid)
              intro ham
              exact foldl_erase_not_mem am sids hnd _ ham hmem
  · intro db user sids probs hne
    have hfg : ∀ pM ∈ probs,
        (fun pM : ℕ × ProbMatrix =>
          (greedyOne sids pM.2).map (fun sc => (pM.1, sc.1, sc.2))) pM =
        some ((fun pM : ℕ × ProbMatrix =>
          (pM.1, ((greedyOne sids pM.2).getD ([], 0)).1,
            ((greedyOne sids pM.2).getD ([], 0)).2)) pM) := by
      intro pM _
      obtain ⟨m, hm⟩ := pyMax_isSome (sids.map (fun sid => sidProd pM.2 sid))
        (by simpa using hne)
      simp [greedyOne, hm]
    have hgp : greedyPredictor sids probs =
        some (probs.map (fun pM : ℕ × ProbMatrix =>
          (pM.1, ((greedyOne sids pM.2).getD ([], 0)).1,
            ((greedyOne sids pM.2).getD ([], 0)).2))) :=
      optionMapList_eq_map probs hfg
    refine ⟨_, hgp, ?_, ?_, ?_⟩
    · simp [runGreedy, hgp]
    · rw [List.map_map]
      exact List.map_congr_left (fun pM _ => rfl)
    · intro t ht
      rcases List.mem_map.mp ht with ⟨pM, hpM, rfl⟩
      obtain ⟨m, hm⟩ := pyMax_isSome (sids.map (fun sid => sidProd pM.2 sid))
        (by simpa using hne)
      have hco : greedyOne sids pM.2 =
          some (sids.getD
            (pyIndex m (sids.map (fun sid => sidProd pM.2 sid))) [], m) := by
        simp only [greedyOne]
        rw [hm]
      show ((greedyOne sids pM.2).getD ([], 0)).1 ∈ sids
      rw [hco]
      simp only [Option.getD_some]
      apply getD_mem_of_lt
      have hidx := pyIndex_lt_length _ _ (pyMax_mem _ _ hm)
      simpa using hidx

/-- C6 counterexample: a state in which paper 5 already carries a completed
identification (it is absent from the unidentified list and its student ID
[1] is already matched) still receives an MLGreedy prediction proposing the
consumed ID [1]: the greedy strategy filters neither the papers nor the
roster, contradicting the claim that both strategies do. -/
theorem strategies_filtering_cx :
    (makeIdPredictions [] 0 [[1]] [] [[1]]
        [(5, [[0, 1, 0, 0, 0, 0, 0, 0, 0, 0]])]).1 =
      [⟨5, "MLGreedy", [1], 1, 0⟩] ∧
    (5 : ℕ) ∉ ([] : List ℕ) ∧ ([1] : Sid) ∈ [[(1 : ℕ)]] := by
  refine ⟨?_, by simp, by simp⟩
  simp [makeIdPredictions, runGreedy, greedyPredictor, optionMapList, greedyOne,
    pyMax, pyIndex, sidProd, writePredictions, addOrChangeIDPrediction,
    runLapSolver, List.erase, List.range_succ]

/-- C6 witness: both strategies succeed at a concrete non-degenerate
instance. -/
theorem strategies_paper_and_roster_filtering_witness :
    (∃ preds,
      lapPredictor ([5].filter (fun n =>
        (([(5, [[0, 1, 0, 0, 0, 0, 0, 0, 0, 0]])] : ProbMap).lookup n).isSome))
        ((runLapSolver [] 0 [] [5] [[1]]
          [(5, [[0, 1, 0, 0, 0, 0, 0, 0, 0, 0]])]).2.1)
        [(5, [[0, 1, 0, 0, 0, 0, 0, 0, 0, 0]])] = some preds) ∧
    (∃ preds, greedyPredictor [[1]]
      [(5, [[0, 1, 0, 0, 0, 0, 0, 0, 0, 0]])] = some preds) := by
  constructor
  · obtain ⟨preds, h1, -, -⟩ := strategies_paper_and_roster_filtering.1
      [] 0 [] [5] [[1]] [(5, [[0, 1, 0, 0, 0, 0, 0, 0, 0, 0]])]
      (by decide) (by rfl)
    exact ⟨preds, h1⟩
  · obtain ⟨preds, h1, -, -, -⟩ := strategies_paper_and_roster_filtering.2
      [] 0 [[1]] [(5, [[0, 1, 0, 0, 0, 0, 0, 0, 0, 0]])] (by decide)
    exact ⟨preds, h1⟩

/-- C3 witness: the cost matrix assembles at a concrete instance whose
probability entry for the candidate digit is exactly zero. -/
theorem assemble_cost_matrix_clamped_log_witness :
    ∃ cost, assembleCostMatrix [1] [[0]]
        [(1, [[0, 1, 0, 0, 0, 0, 0, 0, 0, 0]])] = some cost ∧
      cost.length = 1 := by
  obtain ⟨cost, h1, h2, -⟩ := assemble_cost_matrix_clamped_log [1] [[0]]
    [(1, [[0, 1, 0, 0, 0, 0, 0, 0, 0, 0]])] 1 (by decide)
    (by
      intro pn hpn
      have h5 : pn = 1 := by simpa using hpn
      subst h5
      exact ⟨_, rfl, rfl⟩)
  exact ⟨cost, h1, by simpa using h2⟩
